import Mathlib

/-!
Shallow embedding of the data generators in `src/DataGen.py` of the
`gross` repository, together with proofs settling the frozen claims about
them.  Python integers are modelled by `ℤ`/`ℕ`, Python floats by `ℚ` where
the code only performs rational arithmetic and by `ℝ` where it calls
`numpy` trigonometry, Python lists by `List`, and Python exceptions by an
explicit `Except` result.  Randomness (the `random` module) is modelled by
passing the drawn values in as explicit parameters, quantified over in the
theorems exactly as the claims quantify over the possible draws.
-/

/-- Python exception outcomes produced by the embedded functions:
`ValueError` (the repository's invalid-parameter error) and `IndexError`
(a list access out of range). -/
inductive PyErr where
  | valueError
  | indexError
  deriving DecidableEq, Repr

/-- Embedding of `ascendingData(min_value, max_value, array_length, step)`
(src/DataGen.py lines 46-63): after validating
`array_length < 0 or min_value > max_value or step <= 0` it returns the
comprehension `[min_value + i * step for i in range(array_length)]`. -/
def ascendingData (min_value max_value : ℤ) (array_length : ℤ) (step : ℚ) :
    Except PyErr (List ℚ) :=
  if array_length < 0 ∨ min_value > max_value ∨ step ≤ 0 then
    .error .valueError
  else
    .ok ((List.range array_length.toNat).map (fun i : ℕ => (min_value : ℚ) + (i : ℚ) * step))

/-- Truncation toward zero, the behaviour of Python's `int()` on a float. -/
def ratTrunc (q : ℚ) : ℤ := if 0 ≤ q then ⌊q⌋ else ⌈q⌉

/-- The `scaled_range` computed by `ascendingDataWithNoise`
(src/DataGen.py lines 97-98):
`max(1, int((max_value - min_value + 1) * noise_factor))`. -/
def scaledRange (min_value max_value : ℤ) (noise_factor : ℚ) : ℤ :=
  max 1 (ratTrunc ((max_value - min_value + 1) * noise_factor))

/-- What Python's `random.sample(range(min_value, min_value + scaled_range), k)`
with `k = min(array_length, scaled_range)` guarantees about its result:
distinct values, all drawn from the population range, exactly `k` of them.
The draw itself is nondeterministic, so it enters the embedding as the
parameter `s` constrained by this predicate. -/
def IsSampleDraw (min_value max_value : ℤ) (array_length : ℕ) (noise_factor : ℚ)
    (s : List ℤ) : Prop :=
  s.Nodup ∧
    (∀ x ∈ s, min_value ≤ x ∧ x < min_value + scaledRange min_value max_value noise_factor) ∧
    (s.length : ℤ) = min (array_length : ℤ) (scaledRange min_value max_value noise_factor)

/-- Embedding of `ascendingDataWithNoise(min_value, max_value, array_length,
noise_factor)` (src/DataGen.py lines 84-100): the result is
`sorted(random.sample(...))`, i.e. the drawn values in ascending order. -/
def ascendingDataWithNoise (min_value max_value : ℤ) (array_length : ℕ)
    (noise_factor : ℚ) (s : List ℤ) : List ℤ :=
  s.mergeSort (fun a b => decide (a ≤ b))

/-- Embedding of `squareData(size, frequency, multiplier)`
(src/DataGen.py lines 193-210): samples
`multiplier * sign(sin(2 * pi * frequency * t))` at
`t = numpy.linspace(0, 1, size, endpoint=False)`, whose `i`-th point is
`i / size`. -/
noncomputable def squareData (size : ℕ) (frequency multiplier : ℝ) : List ℝ :=
  (List.range size).map
    (fun i : ℕ =>
      multiplier * Real.sign (Real.sin (2 * Real.pi * frequency * ((i : ℝ) / (size : ℝ)))))

/-- Embedding of `numpy.arange(start, stop, step)` for rational arguments:
`ceil((stop - start) / step)` points `start + i * step`. -/
def npArange (start stop step : ℚ) : List ℚ :=
  (List.range (⌈(stop - start) / step⌉.toNat)).map (fun i : ℕ => start + (i : ℚ) * step)

/-- Embedding of `sinData(multiplier)` (src/DataGen.py lines 234-247):
`time = numpy.arange(0, 10, 0.1)`, `amplitude = multiplier * sin(time)`,
returned as the `numpy.column_stack` of the two, i.e. a list of
`(time, amplitude)` rows. -/
noncomputable def sinData (multiplier : ℝ) : List (ℝ × ℝ) :=
  (npArange 0 10 (1 / 10)).map (fun t : ℚ => ((t : ℝ), multiplier * Real.sin ((t : ℚ) : ℝ)))

/-- Python list read `l[i]`, including negative-index wraparound:
`l[i]` for `-len l ≤ i < 0` reads `l[len l + i]`, anything else out of
range raises `IndexError`. -/
def pyGet (l : List ℕ) (i : ℤ) : Except PyErr ℕ :=
  if 0 ≤ i ∧ i < l.length then .ok (l.getD i.toNat 0)
  else if -(l.length : ℤ) ≤ i ∧ i < 0 then .ok (l.getD (i + l.length).toNat 0)
  else .error .indexError

/-- Python list write `l[i] = v`, including negative-index wraparound. -/
def pySet (l : List ℕ) (i : ℤ) (v : ℕ) : Except PyErr (List ℕ) :=
  if 0 ≤ i ∧ i < l.length then .ok (l.set i.toNat v)
  else if -(l.length : ℤ) ≤ i ∧ i < 0 then .ok (l.set (i + l.length).toNat v)
  else .error .indexError

/-- The array `a` of `genDataWithInversions` (src/DataGen.py lines 295-299):
`a = [0] * len` followed by `for i in range(1, len): a[i] = 1 + a[i - 1]`. -/
def buildA (len : ℕ) : List ℕ :=
  ((List.range len).drop 1).foldl (fun a i => a.set i (1 + a.getD (i - 1) 0))
    (List.replicate len 0)

/-- The `else` block of the `genDataWithInversions` loop
(src/DataGen.py lines 308-318), entered with remaining budget
`kn = numInversions` (known positive and at most `len - i - 1` there, so all
the Python index arithmetic is nonnegative and in range):
`c = [0] * (kn + 1)`;
`for j in range(i, len - 1 - kn): b[j] = j - i`;
`for j in range(len - 1 - kn, len): c[j - (len - 1 - kn)] = j - i`;
`b[len - 1 - kn] = c[kn]`;
`for j in range(len - kn, len): b[j] = c[j - (len - kn)]`. -/
def invFill (n : ℕ) (b : List ℕ) (kn i : ℕ) : List ℕ :=
  let c0 := List.replicate (kn + 1) 0
  let b1 := (List.range' i (n - 1 - kn - i)).foldl (fun bb j => bb.set j (j - i)) b
  let c1 := (List.range' (n - 1 - kn) (kn + 1)).foldl
    (fun cc j => cc.set (j - (n - 1 - kn)) (j - i)) c0
  let b2 := b1.set (n - 1 - kn) (c1.getD kn 0)
  (List.range' (n - kn) kn).foldl (fun bb j => bb.set j (c1.getD (j - (n - kn)) 0)) b2

/-- The `while numInversions > 0` loop of `genDataWithInversions`
(src/DataGen.py lines 304-321), fuelled: `none` means the fuel ran out
before the loop finished.  Each iteration with
`numInversions > len - i - 1` performs `b[i] = a[len - 1 - i]` (with
Python's indexing errors made explicit), then continues with
`numInversions - (len - 1 - i)` and `i + 1`; otherwise the `else` block
fills the suffix and breaks. -/
def invLoop (n : ℕ) (a : List ℕ) : ℕ → List ℕ → ℤ → ℕ → Option (Except PyErr (List ℕ))
  | 0, _, _, _ => none
  | fuel + 1, b, k, i =>
    if k > 0 then
      if k > (n : ℤ) - i - 1 then
        match pyGet a ((n : ℤ) - 1 - i) with
        | .error e => some (.error e)
        | .ok v =>
          match pySet b i v with
          | .error e => some (.error e)
          | .ok b' => invLoop n a fuel b' (k - ((n : ℤ) - 1 - i)) (i + 1)
      else
        some (.ok (invFill n b k.toNat i))
    else
      some (.ok b)

/-- Embedding of `genDataWithInversions(len, numInversions)`
(src/DataGen.py lines 281-323).  The fuel `len + 2` is enough for the
loop to reach its real outcome on every input: the position `i` grows by
one per iteration and the write `b[i]` raises `IndexError` as soon as
`i = len`. -/
def genDataWithInversions (len : ℕ) (numInversions : ℤ) :
    Option (Except PyErr (List ℕ)) :=
  let a := buildA len
  let b := List.replicate len 0
  if len = 0 ∨ numInversions = 0 then some (.ok a)
  else invLoop len a (len + 2) b numInversions 0

/-- One Python swap
`sorted_array[index], sorted_array[index + 2] = sorted_array[index + 2], sorted_array[index]`
(src/DataGen.py line 355). -/
def swapTwoApart (arr : List ℕ) (index : ℕ) : List ℕ :=
  (arr.set index (arr.getD (index + 2) 0)).set (index + 2) (arr.getD index 0)

/-- The `while swaps_count < countOutOfPlace` loop of `genDataOutOfPlace`
(src/DataGen.py lines 350-358), fuelled.  `f t` is the value of the `t`-th
call of `random.randint(0, lenArr - 3)`.  The result records the final
array, the final `swaps_count`, and the number of swaps performed. -/
def oopLoop (f : ℕ → ℕ) (countOutOfPlace : ℕ) :
    ℕ → List ℕ → ℕ → ℕ → Option (List ℕ × ℕ × ℕ)
  | 0, arr, swaps_count, t =>
    if swaps_count < countOutOfPlace then none else some (arr, swaps_count, t)
  | fuel + 1, arr, swaps_count, t =>
    if swaps_count < countOutOfPlace then
      oopLoop f countOutOfPlace fuel (swapTwoApart arr (f t))
        (if swaps_count = 0 then swaps_count + 2 else swaps_count + 1) (t + 1)
    else
      some (arr, swaps_count, t)

/-- Embedding of `genDataOutOfPlace(lenArr, countOutOfPlace)`
(src/DataGen.py lines 325-360): `sorted_array = list(range(lenArr))`,
`ValueError` when `countOutOfPlace` is odd (raised before any swap), then
the swap loop.  Fuel `countOutOfPlace` suffices, as proven below. -/
def genDataOutOfPlace (lenArr : ℕ) (countOutOfPlace : ℕ) (f : ℕ → ℕ) :
    Option (Except PyErr (List ℕ)) :=
  if countOutOfPlace % 2 ≠ 0 then some (.error .valueError)
  else
    (oopLoop f countOutOfPlace countOutOfPlace (List.range lenArr) 0 0).map
      (fun r => .ok r.1)

/-- The list returned by `genDataOutOfPlace` (used to state its
correctness without an existential). -/
def oopResult (lenArr : ℕ) (countOutOfPlace : ℕ) (f : ℕ → ℕ) : List ℕ :=
  ((oopLoop f countOutOfPlace countOutOfPlace (List.range lenArr) 0 0).map
    (fun r => r.1)).getD []

/-- Number of positions at which `arr` differs from the identity
permutation `[0, 1, ..., arr.length - 1]`. -/
def diffFromIdentity (arr : List ℕ) : ℕ :=
  (List.range arr.length).countP (fun i => decide (arr.getD i 0 ≠ i))

/-- Inversion count of a list: the number of pairs of positions `i < j`
with `l[i] > l[j]`, counted head by head. -/
def countInv : List ℕ → ℕ
  | [] => 0
  | x :: xs => xs.countP (fun y => decide (y < x)) + countInv xs

/-- Number of inversion pairs between a left block and a right block. -/
def crossInv (xs ys : List ℕ) : ℕ :=
  (xs.map (fun x => ys.countP (fun y => decide (y < x)))).sum

/-- Maximal number of inversions of a permutation of `[0..m-1]`. -/
def maxInv (m : ℕ) : ℕ := m * (m - 1) / 2

/-- Closed form of the list built by the `genDataWithInversions` loop on a
suffix of length `m` with remaining inversion budget `k ≤ maxInv m`:
while the budget exceeds `m - 1` the maximal value is put in front, and
the final block places the largest remaining value before the `k` values
just below it. -/
def invSuffix : ℕ → ℕ → List ℕ
  | 0, _ => []
  | m + 1, k =>
    if k = 0 then List.range (m + 1)
    else if k ≤ m then List.range (m - k) ++ m :: List.range' (m - k) k
    else m :: invSuffix m (k - m)

/-- Index stream used as a concrete draw of `random.randint(0, lenArr - 3)`
for `lenArr = 12`: the indices 0, 4, 8 repeating. -/
def oopIdx : ℕ → ℕ := fun t => 4 * (t % 3)

/-- The arithmetic sequence `[min + i * step for i in range(len)]`, the
list `ascendingData` returns on valid parameters. -/
def ascendingSeq (min_value : ℤ) (len : ℕ) (step : ℚ) : List ℚ :=
  (List.range len).map (fun i : ℕ => (min_value : ℚ) + (i : ℚ) * step)

/-- C8: for `min_value ≤ max_value`, `array_length ≥ 0` and `step > 0`,
`ascendingData` returns the strictly increasing arithmetic sequence
`[min_value, min_value + step, ...]` of exactly `array_length` values. -/
theorem ascendingData_arithmetic (min_value max_value array_length : ℤ) (step : ℚ)
    (h1 : min_value ≤ max_value) (h2 : 0 ≤ array_length) (h3 : 0 < step) :
    ascendingData min_value max_value array_length step =
      .ok (ascendingSeq min_value array_length.toNat step) ∧
    (ascendingSeq min_value array_length.toNat step).length = array_length.toNat ∧
    (ascendingSeq min_value array_length.toNat step).Sorted (· < ·) ∧
    ∀ i : ℕ, i < array_length.toNat →
      (ascendingSeq min_value array_length.toNat step).getD i 0 =
        (min_value : ℚ) + i * step := by
  refine ⟨?_, by simp [ascendingSeq], ?_, ?_⟩
  · rw [ascendingData, if_neg]
    · rfl
    · push_neg
      exact ⟨by omega, h1, h3⟩
  · rw [ascendingSeq, List.Sorted, List.pairwise_map]
    refine (List.pairwise_lt_range _).imp ?_
    intro a b hab
    have : (a : ℚ) < b := by exact_mod_cast hab
    have := mul_lt_mul_of_pos_right this h3
    linarith
  · intro i hi
    rw [ascendingSeq, List.getD_eq_getElem?_getD, List.getElem?_map, List.getElem?_range hi]
    rfl

/-- Witness for C8 at the spec's concrete scenario
`ascendingData(0, 10, 5, 2) = [0, 2, 4, 6, 8]`. -/
theorem ascendingData_arithmetic_witness :
    (0 : ℤ) ≤ 10 ∧ (0 : ℤ) ≤ 5 ∧ (0 : ℚ) < 2 ∧
    ascendingData 0 10 5 2 = .ok [0, 2, 4, 6, 8] ∧
    [(0 : ℚ), 2, 4, 6, 8].Sorted (· < ·) := by
  have h := ascendingData_arithmetic 0 10 5 2 (by norm_num) (by norm_num) (by norm_num)
  have hseq : ascendingSeq 0 (Int.toNat 5) 2 = [0, 2, 4, 6, 8] := by
    show ascendingSeq 0 5 2 = [0, 2, 4, 6, 8]
    rw [ascendingSeq]
    simp [List.range_succ]
    norm_num
  refine ⟨by norm_num, by norm_num, by norm_num, ?_, ?_⟩
  · rw [h.1, hseq]
  · rw [← hseq]
    exact h.2.2.1

/-- C10: the list `ascendingData` returns does not depend on `max_value`
(the body never reads it), so two calls under the claim's preconditions
that differ only in `max_value` return identical lists; consequently the
returned values can strictly exceed `max_value`, as the concrete call
`ascendingData(0, 1, 3, 2) = [0, 2, 4]` (with `4 > 1`) shows. -/
theorem ascendingData_independent_of_max :
    (∀ (mn mx mx' len : ℤ) (step : ℚ), mn ≤ mx → mn ≤ mx' → 0 ≤ len → 0 < step →
      ascendingData mn mx len step = ascendingData mn mx' len step) ∧
    ascendingData 0 1 3 2 = .ok [0, 2, 4] ∧ (4 : ℚ) ∈ [(0 : ℚ), 2, 4] ∧ (1 : ℚ) < 4 := by
  refine ⟨?_, ?_, by norm_num, by norm_num⟩
  case refine_2 =>
    rw [ascendingData, if_neg (by norm_num)]
    simp [List.range_succ]
    norm_num
  intro mn mx mx' len step hmx hmx' hlen hstep
  rw [ascendingData, ascendingData, if_neg, if_neg]
  · push_neg
    exact ⟨by omega, hmx', hstep⟩
  · push_neg
    exact ⟨by omega, hmx, hstep⟩

/-- Witness for C10: two concrete calls differing only in `max_value`
return the same list. -/
theorem ascendingData_independent_of_max_witness :
    ascendingData 0 5 4 1 = ascendingData 0 99 4 1 :=
  ascendingData_independent_of_max.1 0 5 99 4 1 (by norm_num) (by norm_num)
    (by norm_num) (by norm_num)

/-- C7: for every array length and every odd `countOutOfPlace`,
`genDataOutOfPlace` raises `ValueError` (the `InvalidParameter` error).
The check precedes the swap loop, so the result is this error for every
possible stream of random indices — no partially swapped array is ever
returned. -/
theorem genDataOutOfPlace_odd_error (lenArr countOutOfPlace : ℕ) (f : ℕ → ℕ)
    (h : countOutOfPlace % 2 = 1) :
    genDataOutOfPlace lenArr countOutOfPlace f = some (.error .valueError) := by
  rw [genDataOutOfPlace, if_pos]
  omega

/-- Witness for C7 at `lenArr = 5`, `countOutOfPlace = 3`. -/
theorem genDataOutOfPlace_odd_error_witness :
    genDataOutOfPlace 5 3 oopIdx = some (.error .valueError) :=
  genDataOutOfPlace_odd_error 5 3 oopIdx (by norm_num)

/-- C5: for `min_value ≤ max_value`, any requested length, any noise
factor and every possible draw of the without-replacement sampler,
`ascendingDataWithNoise` returns a strictly increasing list without
duplicates whose length is at most the requested length. -/
theorem ascendingDataWithNoise_sorted (min_value max_value : ℤ) (array_length : ℕ)
    (noise_factor : ℚ) (s : List ℤ)
    (hmm : min_value ≤ max_value)
    (hs : IsSampleDraw min_value max_value array_length noise_factor s) :
    (ascendingDataWithNoise min_value max_value array_length noise_factor s).Sorted (· < ·) ∧
    (ascendingDataWithNoise min_value max_value array_length noise_factor s).Nodup ∧
    (ascendingDataWithNoise min_value max_value array_length noise_factor s).length ≤
      array_length := by
  have hperm : (ascendingDataWithNoise min_value max_value array_length noise_factor s).Perm s :=
    List.mergeSort_perm s _
  have hnodup : (ascendingDataWithNoise min_value max_value array_length noise_factor s).Nodup :=
    hperm.nodup_iff.mpr hs.1
  have hsorted :
      (ascendingDataWithNoise min_value max_value array_length noise_factor s).Sorted (· ≤ ·) := by
    rw [ascendingDataWithNoise]
    exact List.sorted_mergeSort' s
  refine ⟨hsorted.lt_of_le hnodup, hnodup, ?_⟩
  have hlen := hs.2.2
  have h1 : (1 : ℤ) ≤ scaledRange min_value max_value noise_factor := le_max_left _ _
  have := hperm.length_eq
  omega

/-- Witness for C5 at a concrete draw: population `[0, 5)`, requested
length 3, draw `[2, 0, 4]`. -/
theorem ascendingDataWithNoise_sorted_witness :
    (0 : ℤ) ≤ 4 ∧ IsSampleDraw 0 4 3 1 [2, 0, 4] ∧
    (ascendingDataWithNoise 0 4 3 1 [2, 0, 4]).Sorted (· < ·) ∧
    (ascendingDataWithNoise 0 4 3 1 [2, 0, 4]).Nodup ∧
    (ascendingDataWithNoise 0 4 3 1 [2, 0, 4]).length ≤ 3 := by
  have hdraw : IsSampleDraw 0 4 3 1 [2, 0, 4] := by
    have hscaled : scaledRange 0 4 1 = 5 := by
      rw [scaledRange, ratTrunc, if_pos (by norm_num)]
      norm_num
    refine ⟨by decide, ?_, ?_⟩
    · rw [hscaled]
      decide
    · rw [hscaled]
      norm_num
  exact ⟨by norm_num, hdraw,
    ascendingDataWithNoise_sorted 0 4 3 1 [2, 0, 4] (by norm_num) hdraw⟩

/-- C9: `sinData` ignores any length parameter (it has none) and returns
exactly 100 rows sampled over the fixed time axis `0, 0.1, ..., 9.9`; the
`i`-th row is the pair of the time `i / 10` and the amplitude
`multiplier * sin(i / 10)`. -/
theorem sinData_fixed_axis (multiplier : ℝ) :
    (sinData multiplier).length = 100 ∧
    ∀ i : ℕ, i < 100 →
      (sinData multiplier).getD i (0, 0) =
        ((i : ℝ) / 10, multiplier * Real.sin ((i : ℝ) / 10)) := by
  have hceil : (⌈((10 : ℚ) - 0) / (1 / 10)⌉).toNat = 100 := by
    have h100 : ⌈((10 : ℚ) - 0) / (1 / 10)⌉ = 100 := by norm_num
    rw [h100]
    rfl
  constructor
  · rw [sinData, npArange, hceil]
    rw [List.length_map, List.length_map, List.length_range]
  · intro i hi
    rw [sinData, npArange, hceil]
    rw [List.getD_eq_getElem?_getD, List.getElem?_map, List.getElem?_map,
      List.getElem?_range hi]
    have harg : (((0 : ℚ) + (i : ℚ) * (1 / 10) : ℚ) : ℝ) = (i : ℝ) / 10 := by
      push_cast
      ring
    simp only [Option.map_some', Option.getD_some]
    rw [harg]

/-- Witness for C9 at `multiplier = 2`, row 3. -/
theorem sinData_fixed_axis_witness :
    (sinData 2).length = 100 ∧
    (sinData 2).getD 3 (0, 0) = (((3 : ℕ) : ℝ) / 10, 2 * Real.sin (((3 : ℕ) : ℝ) / 10)) :=
  ⟨(sinData_fixed_axis 2).1, (sinData_fixed_axis 2).2 3 (by norm_num)⟩

/-- Concrete evaluation of the no-noise square generator at
`size = 4, frequency = 1, multiplier = 1`: the sample points are
`t = 0, 1/4, 1/2, 3/4`, the phases are `0, π/2, π, 3π/2`, and
`sign(sin(...))` there is `0, 1, 0, -1`. -/
lemma squareData_four : squareData 4 1 1 = [0, 1, 0, -1] := by
  have hr : List.range 4 = [0, 1, 2, 3] := rfl
  rw [squareData, hr]
  simp only [List.map_cons, List.map_nil]
  have a0 : 2 * Real.pi * 1 * (((0 : ℕ) : ℝ) / ((4 : ℕ) : ℝ)) = 0 := by
    push_cast
    ring
  have a1 : 2 * Real.pi * 1 * (((1 : ℕ) : ℝ) / ((4 : ℕ) : ℝ)) = Real.pi / 2 := by
    push_cast
    ring
  have a2 : 2 * Real.pi * 1 * (((2 : ℕ) : ℝ) / ((4 : ℕ) : ℝ)) = Real.pi := by
    push_cast
    ring
  have a3 : 2 * Real.pi * 1 * (((3 : ℕ) : ℝ) / ((4 : ℕ) : ℝ)) = Real.pi / 2 + Real.pi := by
    push_cast
    ring
  rw [a0, a1, a2, a3, Real.sin_zero, Real.sin_pi_div_two, Real.sin_pi, Real.sin_add_pi,
    Real.sin_pi_div_two, Real.sign_zero, Real.sign_of_pos (by norm_num : (0 : ℝ) < 1),
    Real.sign_of_neg (by norm_num : (-1 : ℝ) < 0)]
  norm_num

/-- C3 counterexample: the first sample of `squareData(4, 1, 1)` is `0`
(the phase is `0`, where `sin` vanishes and `sign` returns `0`), so the
output is neither `[1, 1, -1, -1]` nor confined to `{-1, 1}`. -/
theorem squareData_cex :
    (squareData 4 1 1).getD 0 37 = 0 ∧ ¬((0 : ℝ) = -1 ∨ (0 : ℝ) = 1) ∧
    squareData 4 1 1 ≠ [1, 1, -1, -1] := by
  rw [squareData_four]
  refine ⟨rfl, by norm_num, ?_⟩
  intro h
  have := List.head_eq_of_cons_eq h
  norm_num at this

/-- C3 amended: without noise every sample of `squareData` lies in
`{-multiplier, 0, multiplier}` — the value `0` arises exactly where the
sine vanishes, since `numpy.sign(0) = 0` — and the concrete call
`squareData(4, 1, 1)` equals `[0, 1, 0, -1]` (exact-real semantics of the
phases `0, π/2, π, 3π/2`). -/
theorem squareData_three_values :
    (∀ (size : ℕ) (frequency multiplier : ℝ), ∀ x ∈ squareData size frequency multiplier,
      x = -multiplier ∨ x = 0 ∨ x = multiplier) ∧
    squareData 4 1 1 = [0, 1, 0, -1] := by
  refine ⟨?_, squareData_four⟩
  intro size frequency multiplier x hx
  rw [squareData] at hx
  obtain ⟨i, _, rfl⟩ := List.mem_map.mp hx
  rcases Real.sign_apply_eq
      (Real.sin (2 * Real.pi * frequency * ((i : ℝ) / (size : ℝ)))) with h | h | h <;>
    rw [h]
  · left
    ring
  · right
    left
    ring
  · right
    right
    ring

/-- Witness for C3's amended theorem: the sample `1` of
`squareData(4, 1, 1)` is one of the three admissible values. -/
theorem squareData_three_values_witness :
    squareData 4 1 1 = [0, 1, 0, -1] ∧ ((1 : ℝ) = -1 ∨ (1 : ℝ) = 0 ∨ (1 : ℝ) = 1) := by
  refine ⟨squareData_three_values.2, ?_⟩
  refine squareData_three_values.1 4 1 1 1 ?_
  rw [squareData_three_values.2]
  norm_num

/-- Swapping the entries at `index` and `index + 2` permutes the list,
provided both positions exist. -/
lemma swapTwoApart_perm (l : List ℕ) (i : ℕ) (h : i + 2 < l.length) :
    (swapTwoApart l i).Perm l := by
  have hi : i < l.length := by omega
  have hi1 : i + 1 < l.length := by omega
  have hA : (l.take i).length = i := by
    rw [List.length_take]
    omega
  obtain ⟨x, hx⟩ : ∃ x, l.getD i 0 = x := ⟨_, rfl⟩
  obtain ⟨m, hm⟩ : ∃ m, l.getD (i + 1) 0 = m := ⟨_, rfl⟩
  obtain ⟨z, hz⟩ : ∃ z, l.getD (i + 2) 0 = z := ⟨_, rfl⟩
  have hdecomp : l = l.take i ++ x :: m :: z :: l.drop (i + 3) := by
    conv_lhs => rw [← List.take_append_drop i l]
    rw [List.drop_eq_getElem_cons hi, List.drop_eq_getElem_cons hi1,
      List.drop_eq_getElem_cons h]
    rw [← List.getD_eq_getElem l 0 hi, ← List.getD_eq_getElem l 0 hi1,
      ← List.getD_eq_getElem l 0 h, hx, hm, hz]
  rw [swapTwoApart, hx, hz]
  conv_lhs => rw [hdecomp]
  conv_rhs => rw [hdecomp]
  rw [List.set_append_right _ _ (le_of_eq hA), hA, Nat.sub_self, List.set_cons_zero]
  rw [List.set_append_right _ _ (by omega), hA]
  have h2 : i + 2 - i = 2 := by omega
  rw [h2]
  refine List.Perm.append_left _ ?_
  show (z :: m :: x :: l.drop (i + 3)).Perm (x :: m :: z :: l.drop (i + 3))
  have s1 : (z :: m :: x :: l.drop (i + 3)).Perm (m :: z :: x :: l.drop (i + 3)) :=
    List.Perm.swap m z _
  have s2 : (m :: z :: x :: l.drop (i + 3)).Perm (m :: x :: z :: l.drop (i + 3)) :=
    (List.Perm.swap x z _).cons m
  have s3 : (m :: x :: z :: l.drop (i + 3)).Perm (x :: m :: z :: l.drop (i + 3)) :=
    List.Perm.swap x m _
  exact (s1.trans s2).trans s3

/-- If two predicates agree on every element of a list except possibly at
the value `j`, their counts differ by at most the multiplicity of `j`. -/
lemma countP_le_countP_add_count (p q : ℕ → Bool) (j : ℕ) :
    ∀ L : List ℕ, (∀ x ∈ L, x ≠ j → p x = q x) → L.countP p ≤ L.countP q + L.count j := by
  intro L
  induction L with
  | nil => simp
  | cons a L ih =>
    intro hag
    have ihL := ih (fun x hx hxj => hag x (List.mem_cons_of_mem a hx) hxj)
    by_cases haj : a = j
    · subst haj
      rw [List.count_cons_self]
      cases hpa : p a
      · rw [List.countP_cons_of_neg p L (by simp [hpa])]
        have hmono : L.countP q ≤ (a :: L).countP q := by
          cases hqa : q a
          · rw [List.countP_cons_of_neg q L (by simp [hqa])]
          · rw [List.countP_cons_of_pos q L (by simp [hqa])]
            omega
        omega
      · rw [List.countP_cons_of_pos p L (by simp [hpa])]
        have hmono : L.countP q ≤ (a :: L).countP q := by
          cases hqa : q a
          · rw [List.countP_cons_of_neg q L (by simp [hqa])]
          · rw [List.countP_cons_of_pos q L (by simp [hqa])]
            omega
        omega
    · have h4 : p a = q a := hag a (List.mem_cons_self a L) haj
      rw [List.count_cons_of_ne (fun hja => haj hja.symm)]
      cases hpa : p a
      · rw [List.countP_cons_of_neg p L (by simp [hpa]),
          List.countP_cons_of_neg q L (by simp [h4.symm.trans hpa])]
        omega
      · rw [List.countP_cons_of_pos p L (by simp [hpa]),
          List.countP_cons_of_pos q L (by simp [h4.symm.trans hpa])]
        omega

/-- Writing one position of a list changes the number of positions that
differ from the identity by at most one. -/
lemma diffFromIdentity_set_le (l : List ℕ) (j v : ℕ) :
    diffFromIdentity (l.set j v) ≤ diffFromIdentity l + 1 := by
  rw [diffFromIdentity, diffFromIdentity, List.length_set]
  have hagree : ∀ x ∈ List.range l.length, x ≠ j →
      (decide ((l.set j v).getD x 0 ≠ x)) = (decide (l.getD x 0 ≠ x)) := by
    intro x _ hxj
    have hsame : (l.set j v).getD x 0 = l.getD x 0 := by
      rw [List.getD_eq_getElem?_getD, List.getD_eq_getElem?_getD,
        List.getElem?_set_ne (fun hjx => hxj hjx.symm)]
    rw [hsame]
  have hcount : (List.range l.length).count j ≤ 1 :=
    List.nodup_iff_count_le_one.mp (List.nodup_range _) j
  have := countP_le_countP_add_count _ _ j (List.range l.length) hagree
  omega

/-- Swapping two entries changes the number of non-identity positions by
at most two. -/
lemma diffFromIdentity_swap_le (l : List ℕ) (i : ℕ) :
    diffFromIdentity (swapTwoApart l i) ≤ diffFromIdentity l + 2 := by
  rw [swapTwoApart]
  calc diffFromIdentity ((l.set i (l.getD (i + 2) 0)).set (i + 2) (l.getD i 0))
      ≤ diffFromIdentity (l.set i (l.getD (i + 2) 0)) + 1 := diffFromIdentity_set_le _ _ _
    _ ≤ diffFromIdentity l + 1 + 1 := by
        have := diffFromIdentity_set_le l i (l.getD (i + 2) 0)
        omega
    _ = diffFromIdentity l + 2 := by omega

/-- The identity permutation differs from itself in no position. -/
lemma diffFromIdentity_range (n : ℕ) : diffFromIdentity (List.range n) = 0 := by
  rw [diffFromIdentity, List.countP_eq_zero]
  intro a ha
  rw [List.length_range, List.mem_range] at ha
  rw [List.getD_eq_getElem?_getD, List.getElem?_range ha]
  simp

/-- Counting lemma for the swap loop: once `swaps_count` is positive,
every iteration adds exactly one to it, so from `swaps_count = sc` with
`sc + d = countOutOfPlace` the loop returns with final count
`countOutOfPlace` after exactly `d` further swaps. -/
lemma oopLoop_count (f : ℕ → ℕ) (c : ℕ) :
    ∀ d fuel sc t arr, 1 ≤ sc → sc + d = c → d ≤ fuel →
      ((oopLoop f c fuel arr sc t).map (fun r => (r.2.1, r.2.2))) = some (c, t + d) := by
  intro d
  induction d with
  | zero =>
    intro fuel sc t arr hsc hd hfuel
    have hstop : ¬ sc < c := by omega
    have hsc' : sc = c := by omega
    cases fuel with
    | zero =>
      rw [oopLoop, if_neg hstop]
      simp only [Option.map_some']
      rw [hsc']
      rfl
    | succ fu =>
      rw [oopLoop, if_neg hstop]
      simp only [Option.map_some']
      rw [hsc']
      rfl
  | succ d ih =>
    intro fuel sc t arr hsc hd hfuel
    obtain ⟨fu, rfl⟩ : ∃ fu, fuel = fu + 1 := ⟨fuel - 1, by omega⟩
    rw [oopLoop, if_pos (by omega), if_neg (by omega)]
    have := ih fu (sc + 1) (t + 1) (swapTwoApart arr (f t)) (by omega) (by omega) (by omega)
    rw [this]
    have : t + 1 + d = t + (d + 1) := by omega
    rw [this]

/-- Invariant lemma for the swap loop: whenever it returns, the result is
still a permutation of the initial sorted array, and the number of
displaced positions grows by at most two per swap performed. -/
lemma oopLoop_inv (f : ℕ → ℕ) (c n : ℕ) (hn : 3 ≤ n) (hf : ∀ t, f t ≤ n - 3) :
    ∀ fuel arr sc t r, arr.length = n → arr.Perm (List.range n) →
      oopLoop f c fuel arr sc t = some r →
      r.1.Perm (List.range n) ∧
        diffFromIdentity r.1 + 2 * t ≤ diffFromIdentity arr + 2 * r.2.2 := by
  intro fuel
  induction fuel with
  | zero =>
    intro arr sc t r hlen hperm hr
    rw [oopLoop] at hr
    by_cases hsc : sc < c
    · rw [if_pos hsc] at hr
      exact absurd hr (by simp)
    · rw [if_neg hsc] at hr
      obtain rfl : (arr, sc, t) = r := by exact Option.some.inj hr
      exact ⟨hperm, by simp⟩
  | succ fu ih =>
    intro arr sc t r hlen hperm hr
    rw [oopLoop] at hr
    by_cases hsc : sc < c
    · rw [if_pos hsc] at hr
      have hidx : f t + 2 < arr.length := by
        have := hf t
        omega
      have hlen' : (swapTwoApart arr (f t)).length = n := by
        rw [swapTwoApart, List.length_set, List.length_set, hlen]
      have hperm' : (swapTwoApart arr (f t)).Perm (List.range n) :=
        (swapTwoApart_perm arr (f t) hidx).trans hperm
      have hstep := ih (swapTwoApart arr (f t)) _ (t + 1) r hlen' hperm' hr
      have hswap := diffFromIdentity_swap_le arr (f t)
      exact ⟨hstep.1, by omega⟩
    · rw [if_neg hsc] at hr
      obtain rfl : (arr, sc, t) = r := by exact Option.some.inj hr
      exact ⟨hperm, by simp⟩

/-- Full run of the swap loop as invoked by `genDataOutOfPlace` with
`c ≥ 2`: the first swap raises `swaps_count` from 0 to 2, each later swap
adds 1, so the loop performs exactly `c - 1` swaps and stops with
`swaps_count = c`. -/
lemma oopLoop_run (n c : ℕ) (f : ℕ → ℕ) (hc2 : 2 ≤ c) :
    ((oopLoop f c c (List.range n) 0 0).map (fun r => (r.2.1, r.2.2))) = some (c, c - 1) := by
  obtain ⟨cf, rfl⟩ : ∃ cf, c = cf + 1 := ⟨c - 1, by omega⟩
  rw [oopLoop, if_pos (by omega)]
  have h02 : (if (0 : ℕ) = 0 then (0 : ℕ) + 2 else 0 + 1) = 2 := rfl
  rw [h02]
  have hcount := oopLoop_count f (cf + 1) (cf - 1) cf 2 (0 + 1)
    (swapTwoApart (List.range n) (f 0)) (by omega) (by omega) (by omega)
  rw [hcount]
  simp only [Option.some.injEq, Prod.mk.injEq]
  exact ⟨trivial, by omega⟩

/-- C6: for every `n ≥ 3`, every even `c ≥ 2` and every stream of random
indices in `[0, n-3]`, the swap loop of `genDataOutOfPlace` terminates,
performing exactly `c - 1` swaps: the first raises `swaps_count` from 0
to 2, each later one adds 1, and the loop stops exactly when the count
reaches `c`. -/
theorem oopLoop_terminates_exactly (n c : ℕ) (f : ℕ → ℕ) (hn : 3 ≤ n)
    (hce : c % 2 = 0) (hc2 : 2 ≤ c) (hf : ∀ t, f t ≤ n - 3) :
    ((oopLoop f c c (List.range n) 0 0).map (fun r => (r.2.1, r.2.2))) = some (c, c - 1) :=
  oopLoop_run n c f hc2

/-- Witness for C6 at `n = 12`, `c = 4` and the index stream 0, 4, 8:
three swaps are performed and the final count is exactly 4. -/
theorem oopLoop_terminates_exactly_witness :
    ((oopLoop oopIdx 4 4 (List.range 12) 0 0).map (fun r => (r.2.1, r.2.2))) = some (4, 3) :=
  oopLoop_terminates_exactly 12 4 oopIdx (by norm_num) (by norm_num) (by norm_num)
    (fun t => by
      have ht : t % 3 < 3 := Nat.mod_lt t (by norm_num)
      rw [oopIdx]
      omega)

/-- C2 counterexample: with `n = 12`, `c = 4` and the admissible index
draw 0, 4, 8 (all at most `n - 3 = 9`), the three swaps displace six
positions, so the result differs from the identity in more than `c = 4`
positions. -/
theorem genDataOutOfPlace_cex :
    genDataOutOfPlace 12 4 oopIdx =
      some (.ok [2, 1, 0, 3, 6, 5, 4, 7, 10, 9, 8, 11]) ∧
    oopIdx 0 ≤ 9 ∧ oopIdx 1 ≤ 9 ∧ oopIdx 2 ≤ 9 ∧
    diffFromIdentity [2, 1, 0, 3, 6, 5, 4, 7, 10, 9, 8, 11] = 6 ∧
    ¬ diffFromIdentity [2, 1, 0, 3, 6, 5, 4, 7, 10, 9, 8, 11] ≤ 4 := by
  have hloop : oopLoop oopIdx 4 4 (List.range 12) 0 0 =
      some ([2, 1, 0, 3, 6, 5, 4, 7, 10, 9, 8, 11], 4, 3) := by decide
  refine ⟨?_, by decide, by decide, by decide, by decide, by decide⟩
  rw [genDataOutOfPlace, if_neg (by norm_num), hloop]
  rfl

/-- C2 amended: for `n ≥ 3`, even `c ≥ 2` and every admissible stream of
random indices, `genDataOutOfPlace` returns a permutation of `[0..n-1]`
that differs from the identity in at most `2 * (c - 1)` positions (each
of the `c - 1` swaps displaces at most two positions; the bound `c`
itself is refuted by the counterexample). -/
theorem genDataOutOfPlace_perm_bound (n c : ℕ) (f : ℕ → ℕ) (hn : 3 ≤ n)
    (hce : c % 2 = 0) (hc2 : 2 ≤ c) (hf : ∀ t, f t ≤ n - 3) :
    genDataOutOfPlace n c f = some (.ok (oopResult n c f)) ∧
    (oopResult n c f).Perm (List.range n) ∧
    diffFromIdentity (oopResult n c f) ≤ 2 * (c - 1) := by
  obtain ⟨r, hr, hre⟩ := Option.map_eq_some'.mp (oopLoop_run n c f hc2)
  have ht : r.2.2 = c - 1 := congrArg Prod.snd hre
  have hinv := oopLoop_inv f c n hn hf c (List.range n) 0 0 r
    (List.length_range n) (List.Perm.refl _) hr
  have hDr : diffFromIdentity r.1 ≤ 2 * (c - 1) := by
    have h2 := hinv.2
    rw [diffFromIdentity_range] at h2
    omega
  have hres : oopResult n c f = r.1 := by
    rw [oopResult, hr]
    rfl
  refine ⟨?_, ?_, ?_⟩
  · rw [hres, genDataOutOfPlace, if_neg (by omega), hr]
    rfl
  · rw [hres]
    exact hinv.1
  · rw [hres]
    exact hDr

/-- Witness for C2's amended theorem at `n = 12`, `c = 4` and the index
stream 0, 4, 8. -/
theorem genDataOutOfPlace_perm_bound_witness :
    3 ≤ 12 ∧ 4 % 2 = 0 ∧ 2 ≤ 4 ∧
    genDataOutOfPlace 12 4 oopIdx = some (.ok (oopResult 12 4 oopIdx)) ∧
    (oopResult 12 4 oopIdx).Perm (List.range 12) ∧
    diffFromIdentity (oopResult 12 4 oopIdx) ≤ 2 * (4 - 1) := by
  have h := genDataOutOfPlace_perm_bound 12 4 oopIdx (by norm_num) (by norm_num)
    (by norm_num) (fun t => by
      have ht : t % 3 < 3 := Nat.mod_lt t (by norm_num)
      rw [oopIdx]
      omega)
  exact ⟨by norm_num, by norm_num, by norm_num, h.1, h.2.1, h.2.2⟩

/-- Setting a list at the index right after a prefix replaces the head of
the remainder. -/
lemma set_append_cons_of_length {α : Type} (xs : List α) (y v : α) (tl : List α) (i : ℕ)
    (h : xs.length = i) : (xs ++ y :: tl).set i v = xs ++ v :: tl := by
  subst h
  rw [List.set_append_right _ _ (le_refl _), Nat.sub_self, List.set_cons_zero]

/-- Taking one element past a just-written position splits off the new
value. -/
lemma take_succ_set {α : Type} (l : List α) (i : ℕ) (v : α) (h : i < l.length) :
    (l.set i v).take (i + 1) = l.take i ++ [v] := by
  rw [List.set_eq_take_append_cons_drop, if_pos h]
  rw [List.take_append_eq_append_take, List.take_of_length_le (by rw [List.length_take]; omega),
    List.length_take]
  have h1 : i + 1 - min i l.length = 1 := by omega
  rw [h1, List.take_succ_cons, List.take_zero]

/-- A left fold writing `f j` at position `j` for `j` ranging over
`range' s c` overwrites exactly the slice `[s, s + c)` of the list. -/
lemma foldl_set_range' (f : ℕ → ℕ) :
    ∀ (c s : ℕ) (l : List ℕ), s + c ≤ l.length →
      (List.range' s c).foldl (fun bb j => bb.set j (f j)) l =
        l.take s ++ (List.range' s c).map f ++ l.drop (s + c) := by
  intro c
  induction c with
  | zero =>
    intro s l hs
    simp
  | succ c ih =>
    intro s l hs
    rw [List.range'_succ, List.foldl_cons]
    have hlen : s < l.length := by omega
    have hstep := ih (s + 1) (l.set s (f s)) (by rw [List.length_set]; omega)
    rw [hstep]
    rw [take_succ_set l s (f s) hlen, List.drop_set_of_lt _ _ (by omega)]
    rw [List.map_cons]
    have harr : s + 1 + c = s + (c + 1) := by omega
    rw [harr]
    simp [List.append_assoc]

/-- The initialisation loop of `genDataWithInversions` produces the
identity array: after processing indices `1..j+c-1` the first `j+c`
entries are `0..j+c-1` and the rest are still zero. -/
lemma buildA_loop (n : ℕ) :
    ∀ (c j : ℕ), 1 ≤ j → j + c ≤ n →
      (List.range' j c).foldl (fun a i => a.set i (1 + a.getD (i - 1) 0))
        (List.range j ++ List.replicate (n - j) 0) =
      List.range (j + c) ++ List.replicate (n - (j + c)) 0 := by
  intro c
  induction c with
  | zero =>
    intro j h1 hj
    simp
  | succ c ih =>
    intro j h1 hj
    rw [List.range'_succ, List.foldl_cons]
    have hgd : (List.range j ++ List.replicate (n - j) (0 : ℕ)).getD (j - 1) 0 = j - 1 := by
      rw [List.getD_append _ _ _ _ (by rw [List.length_range]; omega)]
      rw [List.getD_eq_getElem _ _ (by rw [List.length_range]; omega), List.getElem_range]
    rw [hgd]
    have hv : 1 + (j - 1) = j := by omega
    rw [hv]
    have hrep : List.replicate (n - j) (0 : ℕ) = 0 :: List.replicate (n - j - 1) 0 := by
      obtain ⟨k, hk⟩ : ∃ k, n - j = k + 1 := ⟨n - j - 1, by omega⟩
      rw [hk, List.replicate_succ]
      congr 1
    rw [hrep, set_append_cons_of_length _ _ _ _ _ (List.length_range j)]
    have hmid : List.range j ++ j :: List.replicate (n - j - 1) (0 : ℕ) =
        List.range (j + 1) ++ List.replicate (n - (j + 1)) 0 := by
      rw [List.range_succ, List.append_assoc]
      have : n - (j + 1) = n - j - 1 := by omega
      rw [this]
      rfl
    rw [hmid]
    have := ih (j + 1) (by omega) (by omega)
    rw [this]
    have harr : j + 1 + c = j + (c + 1) := by omega
    rw [harr]

/-- The array `a` of `genDataWithInversions` equals `[0, 1, ..., len-1]`. -/
lemma buildA_eq (n : ℕ) : buildA n = List.range n := by
  cases n with
  | zero => rfl
  | succ m =>
    rw [buildA, List.range_succ_eq_map]
    have hdrop : (0 :: List.map Nat.succ (List.range m)).drop 1 = List.range' 1 m := by
      rw [List.drop_one, List.tail_cons, List.range'_eq_map_range]
      exact List.map_congr_left (fun a _ => by omega)
    rw [hdrop]
    have hinit : List.replicate (m + 1) (0 : ℕ) =
        List.range 1 ++ List.replicate (m + 1 - 1) 0 := by
      rfl
    rw [hinit]
    have := buildA_loop (m + 1) m 1 (le_refl 1) (by omega)
    rw [this]
    have h1m : 1 + m = m + 1 := by omega
    rw [h1m]
    simp
    exact List.range_succ_eq_map m

/-- Unfolding of `invSuffix` at zero budget: the identity. -/
lemma invSuffix_zero (n : ℕ) : invSuffix n 0 = List.range n := by
  cases n <;> simp [invSuffix]

/-- Unfolding of `invSuffix` in the small-budget (break) regime. -/
lemma invSuffix_base (m k : ℕ) (hk0 : k ≠ 0) (hkm : k ≤ m) :
    invSuffix (m + 1) k = List.range (m - k) ++ m :: List.range' (m - k) k := by
  simp only [invSuffix]
  rw [if_neg hk0, if_pos hkm]

/-- Unfolding of `invSuffix` in the large-budget (prefix-placement)
regime. -/
lemma invSuffix_gt (m k : ℕ) (hk : m < k) :
    invSuffix (m + 1) k = m :: invSuffix m (k - m) := by
  simp only [invSuffix]
  rw [if_neg (by omega), if_neg (by omega)]

/-- The `else` block of `genDataWithInversions`, entered at position `i`
with budget `1 ≤ kn ≤ n - 1 - i`, leaves the first `i` entries of `b`
alone and writes `invSuffix (n - i) kn` into the remainder. -/
lemma invFill_eq (n kn i : ℕ) (b : List ℕ) (hb : b.length = n)
    (hk1 : 1 ≤ kn) (hki : kn ≤ n - 1 - i) :
    invFill n b kn i = b.take i ++ invSuffix (n - i) kn := by
  have hin : i + kn + 1 ≤ n := by omega
  simp only [invFill]
  have hc1 : (List.range' (n - 1 - kn) (kn + 1)).foldl
      (fun cc j => cc.set (j - (n - 1 - kn)) (j - i)) (List.replicate (kn + 1) 0) =
      List.range' (n - 1 - kn - i) (kn + 1) := by
    rw [List.range'_eq_map_range, List.foldl_map]
    have hext : ∀ (cc : List ℕ), ∀ t ∈ List.range (kn + 1),
        cc.set (n - 1 - kn + t - (n - 1 - kn)) (n - 1 - kn + t - i) =
        cc.set t (n - 1 - kn - i + t) := by
      intro cc t _
      have e1 : n - 1 - kn + t - (n - 1 - kn) = t := by omega
      have e2 : n - 1 - kn + t - i = n - 1 - kn - i + t := by omega
      rw [e1, e2]
    rw [List.foldl_ext _ _ _ hext]
    rw [List.range_eq_range']
    rw [foldl_set_range' (fun t => n - 1 - kn - i + t) (kn + 1) 0
      (List.replicate (kn + 1) 0) (by simp)]
    rw [List.take_zero, List.nil_append, List.drop_eq_nil_of_le (by simp), List.append_nil]
    rw [← List.range_eq_range', ← List.range'_eq_map_range]
  rw [hc1]
  have hgd : (List.range' (n - 1 - kn - i) (kn + 1)).getD kn 0 = n - 1 - i := by
    rw [List.getD_eq_getElem _ _ (by simp), List.getElem_range']
    omega
  rw [hgd]
  rw [foldl_set_range' (fun j => j - i) (n - 1 - kn - i) i b (by omega)]
  have hmap1 : (List.range' i (n - 1 - kn - i)).map (fun j => j - i) =
      List.range (n - 1 - kn - i) := by
    rw [List.range'_eq_map_range, List.map_map]
    have hcomp : ∀ t ∈ List.range (n - 1 - kn - i),
        ((fun j => j - i) ∘ (fun x => i + x)) t = t := by
      intro t _
      show i + t - i = t
      omega
    rw [List.map_congr_left hcomp, List.map_id']
  rw [hmap1]
  have hidx1 : i + (n - 1 - kn - i) = n - 1 - kn := by omega
  rw [hidx1]
  have hdrop : b.drop (n - 1 - kn) = b.getD (n - 1 - kn) 0 :: b.drop (n - kn) := by
    have h1 : n - 1 - kn < b.length := by omega
    rw [List.drop_eq_getElem_cons h1, ← List.getD_eq_getElem b 0 h1]
    have h2 : n - 1 - kn + 1 = n - kn := by omega
    rw [h2]
  rw [hdrop]
  rw [set_append_cons_of_length _ _ _ _ _
    (by simp [List.length_append, List.length_take, List.length_range]; omega)]
  have hext2 : ∀ (bb : List ℕ), ∀ j ∈ List.range' (n - kn) kn,
      bb.set j ((List.range' (n - 1 - kn - i) (kn + 1)).getD (j - (n - kn)) 0) =
      bb.set j (j - 1 - i) := by
    intro bb j hj
    rw [List.mem_range'_1] at hj
    have hlt : j - (n - kn) < kn + 1 := by omega
    rw [List.getD_eq_getElem _ _ (by simpa using hlt), List.getElem_range']
    congr 1
    omega
  rw [List.foldl_ext _ _ _ hext2]
  rw [foldl_set_range' (fun j => j - 1 - i) kn (n - kn) _
    (by simp [List.length_append, List.length_take, List.length_range, List.length_drop]; omega)]
  have hdropnil : ((b.take i ++ List.range (n - 1 - kn - i)) ++
      (n - 1 - i) :: b.drop (n - kn)).drop (n - kn + kn) = [] := by
    apply List.drop_eq_nil_of_le
    simp [List.length_append, List.length_take, List.length_range, List.length_drop]
    omega
  have hmap2 : (List.range' (n - kn) kn).map (fun j => j - 1 - i) =
      List.range' (n - 1 - kn - i) kn := by
    rw [List.range'_eq_map_range, List.map_map]
    have hcomp : ∀ t ∈ List.range kn,
        ((fun j => j - 1 - i) ∘ (fun x => n - kn + x)) t = n - 1 - kn - i + t := by
      intro t _
      show n - kn + t - 1 - i = n - 1 - kn - i + t
      omega
    rw [List.map_congr_left hcomp, ← List.range'_eq_map_range]
  have htake : ((b.take i ++ List.range (n - 1 - kn - i)) ++
      (n - 1 - i) :: b.drop (n - kn)).take (n - kn) =
      (b.take i ++ List.range (n - 1 - kn - i)) ++ [n - 1 - i] := by
    rw [List.append_cons]
    exact List.take_left'
      (by simp [List.length_append, List.length_take, List.length_range]; omega)
  rw [htake, hmap2, hdropnil, List.append_nil]
  obtain ⟨m, hm⟩ : ∃ m, n - i = m + 1 := ⟨n - i - 1, by omega⟩
  rw [hm]
  rw [invSuffix_base m kn (by omega) (by omega)]
  have e1 : m - kn = n - 1 - kn - i := by omega
  have e2 : m = n - 1 - i := by omega
  rw [e1, e2]
  simp [List.append_assoc]

/-- Recurrence of the maximal inversion count: a permutation of length
`m + 1` can absorb `m` inversions at its first position plus `maxInv m`
in the remainder. -/
lemma maxInv_succ (m : ℕ) : maxInv (m + 1) = maxInv m + m := by
  cases m with
  | zero => rfl
  | succ m' =>
    show (m' + 2) * (m' + 1) / 2 = (m' + 1) * m' / 2 + (m' + 1)
    have key : (m' + 2) * (m' + 1) = (m' + 1) * m' + 2 * (m' + 1) := by ring
    rw [key, Nat.add_mul_div_left _ _ (by norm_num)]

/-- A positive inversion budget needs at least two remaining positions. -/
lemma two_le_of_maxInv_pos (m : ℕ) (h : 1 ≤ maxInv m) : 2 ≤ m := by
  rcases m with _ | _ | m
  · simp [maxInv] at h
  · simp [maxInv] at h
  · omega

/-- `invSuffix m k` is a permutation of `[0..m-1]` for every budget
`k ≤ maxInv m`. -/
lemma invSuffix_perm : ∀ m k, k ≤ maxInv m → (invSuffix m k).Perm (List.range m) := by
  intro m
  induction m with
  | zero =>
    intro k hk
    have hk0 : k = 0 := by simpa [maxInv] using hk
    subst hk0
    simp [invSuffix]
  | succ m ih =>
    intro k hk
    by_cases hk0 : k = 0
    · subst hk0
      rw [invSuffix_zero]
    · by_cases hkm : k ≤ m
      · rw [invSuffix_base m k hk0 hkm]
        have e1 : List.range (m + 1) = List.range' 0 ((k + 1) + (m - k)) := by
          rw [List.range_eq_range']
          congr 1
          omega
        have e2 : List.range' 0 ((k + 1) + (m - k)) =
            List.range' 0 (m - k) ++ List.range' (0 + (m - k)) (k + 1) :=
          (List.range'_append_1 0 (m - k) (k + 1)).symm
        have e3 : List.range' (0 + (m - k)) (k + 1) = List.range' (m - k) k ++ [m] := by
          have h0 : 0 + (m - k) = m - k := by omega
          have h4 : m - k + k = m := by omega
          rw [h0, List.range'_1_concat, h4]
        rw [e1, e2, e3, List.range_eq_range' (m - k)]
        exact List.Perm.append_left _
          (List.perm_append_singleton m (List.range' (m - k) k)).symm
      · rw [invSuffix_gt m k (by omega)]
        have hk' : k - m ≤ maxInv m := by
          have := maxInv_succ m
          omega
        refine ((ih (k - m) hk').cons m).trans ?_
        rw [List.range_succ]
        exact (List.perm_append_singleton m (List.range m)).symm

/-- Inversion count of a concatenation: inversions inside each block plus
the cross pairs. -/
lemma countInv_append (xs ys : List ℕ) :
    countInv (xs ++ ys) = countInv xs + crossInv xs ys + countInv ys := by
  induction xs with
  | nil => simp [countInv, crossInv]
  | cons x xs ih =>
    rw [List.cons_append]
    simp only [countInv, crossInv, List.map_cons, List.sum_cons]
    rw [List.countP_append, ih]
    simp only [crossInv]
    omega

/-- A run of consecutive integers contains no inversion. -/
lemma countInv_range' : ∀ (c s : ℕ), countInv (List.range' s c) = 0 := by
  intro c
  induction c with
  | zero =>
    intro s
    rfl
  | succ c ih =>
    intro s
    rw [List.range'_succ]
    simp only [countInv]
    rw [ih (s + 1)]
    have hz : (List.range' (s + 1) c).countP (fun y => decide (y < s)) = 0 := by
      rw [List.countP_eq_zero]
      intro y hy
      rw [List.mem_range'_1] at hy
      simp
      omega
    rw [hz]

/-- The identity permutation contains no inversion. -/
lemma countInv_range (n : ℕ) : countInv (List.range n) = 0 := by
  rw [List.range_eq_range']
  exact countInv_range' n 0

/-- No cross inversions when every left element is at most every right
element. -/
lemma crossInv_eq_zero (xs ys : List ℕ) (h : ∀ x ∈ xs, ∀ y ∈ ys, ¬ y < x) :
    crossInv xs ys = 0 := by
  induction xs with
  | nil => rfl
  | cons x xs ih =>
    simp only [crossInv, List.map_cons, List.sum_cons]
    have h1 : ys.countP (fun y => decide (y < x)) = 0 := by
      rw [List.countP_eq_zero]
      intro y hy
      simpa using h x (List.mem_cons_self x xs) y hy
    have h2 := ih (fun z hz y hy => h z (List.mem_cons_of_mem x hz) y hy)
    simp only [crossInv] at h2
    omega

/-- `invSuffix m k` has exactly `k` inversions for every budget
`k ≤ maxInv m`. -/
lemma invSuffix_countInv : ∀ m k, k ≤ maxInv m → countInv (invSuffix m k) = k := by
  intro m
  induction m with
  | zero =>
    intro k hk
    have hk0 : k = 0 := by simpa [maxInv] using hk
    subst hk0
    rfl
  | succ m ih =>
    intro k hk
    by_cases hk0 : k = 0
    · subst hk0
      rw [invSuffix_zero, countInv_range]
    · by_cases hkm : k ≤ m
      · rw [invSuffix_base m k hk0 hkm, countInv_append]
        have h1 : countInv (List.range (m - k)) = 0 := countInv_range _
        have h2 : countInv (m :: List.range' (m - k) k) = k := by
          simp only [countInv]
          rw [countInv_range']
          have hall : ∀ y ∈ List.range' (m - k) k, (fun y => decide (y < m)) y = true := by
            intro y hy
            rw [List.mem_range'_1] at hy
            simp
            omega
          rw [List.countP_eq_length.mpr hall, List.length_range']
          omega
        have h3 : crossInv (List.range (m - k)) (m :: List.range' (m - k) k) = 0 := by
          apply crossInv_eq_zero
          intro x hx y hy
          rw [List.mem_range] at hx
          rcases List.mem_cons.mp hy with rfl | hy'
          · omega
          · rw [List.mem_range'_1] at hy'
            omega
        rw [h1, h2, h3]
        omega
      · rw [invSuffix_gt m k (by omega)]
        have hk' : k - m ≤ maxInv m := by
          have := maxInv_succ m
          omega
        simp only [countInv]
        rw [ih (k - m) hk']
        have hperm := invSuffix_perm m (k - m) hk'
        have hcount : (invSuffix m (k - m)).countP (fun y => decide (y < m)) = m := by
          rw [hperm.countP_eq]
          have hall : ∀ y ∈ List.range m, (fun y => decide (y < m)) y = true := by
            intro y hy
            rw [List.mem_range] at hy
            simpa using hy
          rw [List.countP_eq_length.mpr hall, List.length_range]
        rw [hcount]
        omega

/-- At the maximal budget `invSuffix` is the fully reversed permutation. -/
lemma invSuffix_max : ∀ m, invSuffix m (maxInv m) = (List.range m).reverse := by
  intro m
  induction m with
  | zero => rfl
  | succ m ih =>
    rcases Nat.eq_zero_or_pos m with rfl | hm
    · decide
    · rcases Nat.lt_or_ge m 2 with hm2 | hm2
      · obtain rfl : m = 1 := by omega
        decide
      · have hmx : 1 ≤ maxInv m := by
          have h2 : 2 * 1 ≤ m * (m - 1) := Nat.mul_le_mul hm2 (by omega)
          rw [maxInv]
          omega
        rw [maxInv_succ, invSuffix_gt m (maxInv m + m) (by omega),
          show maxInv m + m - m = maxInv m by omega, ih, List.range_succ,
          List.reverse_append]
        simp

/-- Characterisation of the `genDataWithInversions` loop on valid
budgets: started at position `i` with `1 ≤ k ≤ maxInv (n - i)` over the
identity array `a = range n`, it returns `b` with the suffix from
position `i` overwritten by `invSuffix (n - i) k`. -/
lemma invLoop_spec (n : ℕ) :
    ∀ fuel (k : ℤ) (i : ℕ) (b : List ℕ), b.length = n → i ≤ n →
      1 ≤ k → k ≤ (maxInv (n - i) : ℤ) → n - i ≤ fuel →
      invLoop n (List.range n) fuel b k i =
        some (.ok (b.take i ++ invSuffix (n - i) k.toNat)) := by
  intro fuel
  induction fuel with
  | zero =>
    intro k i b hb hi hk1 hkmax hfuel
    exfalso
    have h0 : n - i = 0 := by omega
    rw [h0] at hkmax
    simp [maxInv] at hkmax
    omega
  | succ fu ih =>
    intro k i b hb hi hk1 hkmax hfuel
    have hni2 : 2 ≤ n - i := by
      have : n - i = 0 ∨ n - i = 1 ∨ 2 ≤ n - i := by omega
      rcases this with h | h | h
      · rw [h] at hkmax
        simp [maxInv] at hkmax
        omega
      · rw [h] at hkmax
        simp [maxInv] at hkmax
        omega
      · exact h
    rw [invLoop, if_pos (by omega)]
    by_cases hbig : k > (n : ℤ) - i - 1
    · rw [if_pos hbig]
      have hpg : pyGet (List.range n) ((n : ℤ) - 1 - i) = .ok (n - 1 - i) := by
        rw [pyGet, if_pos]
        · congr 1
          have htn : ((n : ℤ) - 1 - i).toNat = n - 1 - i := by omega
          rw [htn, List.getD_eq_getElem _ _ (by rw [List.length_range]; omega),
            List.getElem_range]
        · constructor
          · omega
          · rw [List.length_range]
            omega
      have hps : pySet b (i : ℤ) (n - 1 - i) = .ok (b.set i (n - 1 - i)) := by
        rw [pySet, if_pos]
        · simp
        · constructor
          · omega
          · rw [hb]
            omega
      simp only [hpg, hps]
      have hbound : k - ((n : ℤ) - 1 - i) ≤ (maxInv (n - (i + 1)) : ℤ) := by
        have hni : n - i = (n - i - 1) + 1 := by omega
        rw [hni] at hkmax
        rw [maxInv_succ (n - i - 1)] at hkmax
        have hrw : n - (i + 1) = n - i - 1 := by omega
        rw [hrw]
        push_cast at hkmax ⊢
        omega
      have hrec := ih (k - ((n : ℤ) - 1 - i)) (i + 1) (b.set i (n - 1 - i))
        (by rw [List.length_set, hb]) (by omega) (by omega) hbound (by omega)
      rw [hrec]
      have htake : (b.set i (n - 1 - i)).take (i + 1) = b.take i ++ [n - 1 - i] :=
        take_succ_set b i _ (by omega)
      rw [htake]
      obtain ⟨m, hm⟩ : ∃ m, n - i = m + 1 := ⟨n - i - 1, by omega⟩
      rw [hm, invSuffix_gt m k.toNat (by omega)]
      have h1 : n - (i + 1) = m := by omega
      have h2 : (k - ((n : ℤ) - 1 - i)).toNat = k.toNat - m := by omega
      have h3 : n - 1 - i = m := by omega
      rw [h1, h2, h3]
      simp [List.append_assoc]
    · rw [if_neg hbig]
      have hk' : 1 ≤ k.toNat := by omega
      have hki : k.toNat ≤ n - 1 - i := by omega
      rw [invFill_eq n k.toNat i b hb hk' hki]

/-- C1: for every `n ≥ 0` and every `k` with `0 ≤ k ≤ n(n-1)/2`,
`genDataWithInversions(n, k)` returns the permutation `invSuffix n k` of
`[0..n-1]`, whose inversion count is exactly `k`; `k = 0` yields the
identity and `k = n(n-1)/2` the full reverse. -/
theorem genDataWithInversions_exact (n k : ℕ) (hk : k ≤ n * (n - 1) / 2) :
    genDataWithInversions n (k : ℤ) = some (.ok (invSuffix n k)) ∧
    (invSuffix n k).Perm (List.range n) ∧
    countInv (invSuffix n k) = k ∧
    (k = 0 → invSuffix n k = List.range n) ∧
    (k = n * (n - 1) / 2 → invSuffix n k = (List.range n).reverse) := by
  have hkm : k ≤ maxInv n := hk
  refine ⟨?_, invSuffix_perm n k hkm, invSuffix_countInv n k hkm, ?_, ?_⟩
  · rw [genDataWithInversions]
    by_cases h0 : n = 0 ∨ (k : ℤ) = 0
    · rw [if_pos h0]
      rcases h0 with rfl | hz
      · have hk0 : k = 0 := by omega
        subst hk0
        rfl
      · have hk0 : k = 0 := by exact_mod_cast hz
        subst hk0
        rw [buildA_eq, invSuffix_zero]
    · rw [if_neg h0]
      push_neg at h0
      have hk1 : 1 ≤ (k : ℤ) := by
        have := h0.2
        omega
      rw [buildA_eq]
      have hspec := invLoop_spec n (n + 2) (k : ℤ) 0 (List.replicate n 0)
        (by simp) (by omega) hk1 (by simpa using hkm) (by omega)
      rw [hspec]
      simp
  · intro hk0
    subst hk0
    exact invSuffix_zero n
  · intro hkmax
    subst hkmax
    exact invSuffix_max n

/-- Witness for C1 at `n = 5`, `k = 4`. -/
theorem genDataWithInversions_exact_witness :
    4 ≤ 5 * (5 - 1) / 2 ∧
    genDataWithInversions 5 (4 : ℤ) = some (.ok (invSuffix 5 4)) ∧
    (invSuffix 5 4).Perm (List.range 5) ∧
    countInv (invSuffix 5 4) = 4 := by
  have h := genDataWithInversions_exact 5 4 (by norm_num)
  exact ⟨by norm_num, h.1, h.2.1, h.2.2.1⟩

/-- C4 counterexample: `genDataWithInversions(3, -1)` raises nothing at
all — the loop body is skipped for a negative budget and the untouched
work array `[0, 0, 0]` is returned. -/
theorem genDataWithInversions_cex :
    genDataWithInversions 3 (-1) = some (.ok [0, 0, 0]) ∧
    genDataWithInversions 3 (-1) ≠ some (.error .valueError) := by
  have h1 : genDataWithInversions 3 (-1) = some (.ok [0, 0, 0]) := by rfl
  refine ⟨h1, ?_⟩
  intro h
  rw [h1] at h
  simp at h

/-- C4 amended: `genDataWithInversions` performs no validation of
`numInversions`.  For negative `k` with `n ≥ 1` the while loop is skipped
and the all-zero work array is returned without any error; for `n = 0`
every `k` returns `[]`; for `k` above `n(n-1)/2` the loop writes past the
end of the array and fails with `IndexError` — never with the
`InvalidParameter` `ValueError` — as at `(3, 7)`. -/
theorem genDataWithInversions_no_validation :
    (∀ (n : ℕ) (k : ℤ), 1 ≤ n → k < 0 →
      genDataWithInversions n k = some (.ok (List.replicate n 0))) ∧
    (∀ k : ℤ, genDataWithInversions 0 k = some (.ok [])) ∧
    genDataWithInversions 3 7 = some (.error .indexError) := by
  refine ⟨?_, ?_, ?_⟩
  · intro n k hn hk
    rw [genDataWithInversions, if_neg (by push_neg; exact ⟨by omega, by omega⟩)]
    obtain ⟨fu, hfu⟩ : ∃ fu, n + 2 = fu + 1 := ⟨n + 1, by omega⟩
    rw [hfu, invLoop, if_neg (by omega)]
  · intro k
    by_cases hk : k = 0
    · subst hk
      rfl
    · rw [genDataWithInversions, if_pos (Or.inl rfl)]
      rfl
  · rfl

/-- Witness for C4's amended theorem at `n = 2`, `k = -5`. -/
theorem genDataWithInversions_no_validation_witness :
    genDataWithInversions 2 (-5) = some (.ok (List.replicate 2 0)) :=
  genDataWithInversions_no_validation.1 2 (-5) (by norm_num) (by norm_num)
